import Mathlib

/-!
# Verification of the file-backed JSON collection store

Shallow embedding of `src/db/store.js` (the current revision, the one whose
`create` computes the next id with a `reduce` over the collection and whose
read failure is caught), together with theorems checking the natural-language
specification against it.

Modelling conventions:
* JSON values are the inductive `JValue`; JavaScript numbers are modelled as
  integers (`Int`), which covers every value the claims mention.  Fractional
  number literals are therefore not modelled (the parser accepts only
  integer literals).
* The backing file is `FS := Option String`: `none` is a missing file,
  `some s` a file whose full contents are `s`.  `JSON.parse` /
  `JSON.stringify(·, null, 2)` are modelled by the executable `parseJson` /
  `stringify` below, written from the JSON grammar and the observable
  behaviour of `JSON.stringify` with a 2-space indent.
* JavaScript objects are association lists in property order; property
  assignment (`db[collection] = ...`) updates the existing key in place or
  appends a fresh key, and object-literal spread (`{ id: nextId, ...data }`)
  assigns the spread properties one by one, later assignments overwriting
  earlier ones, exactly as in JavaScript.
* A document that parses to a non-object, or a collection value that is not
  an array, makes the JavaScript `create` throw a `TypeError` (strict-mode
  assignment to a primitive's property, `.reduce`/`.push` on a non-array);
  this is the `JsError.typeError` result.  (For an array-valued document the
  real engine would instead set a named property on the array; no claim
  reaches that corner and it is folded into `typeError` as well.)
-/

namespace JsonDb

/-- A JSON value.  JavaScript numbers are modelled as integers. -/
inductive JValue where
  | null : JValue
  | bool : Bool → JValue
  | num : Int → JValue
  | str : String → JValue
  | arr : List JValue → JValue
  | obj : List (String × JValue) → JValue
deriving Repr

/-- The left brace character (written by code point to keep it out of
string literals). -/
def lb : Char := Char.ofNat 123

/-- The right brace character. -/
def rb : Char := Char.ofNat 125

/-- Whitespace accepted by the JSON grammar. -/
def isWs (c : Char) : Bool := c == ' ' || c == '\n' || c == '\t' || c == '\x0d'

/-- Drop leading JSON whitespace. -/
def skipWs : List Char → List Char
  | [] => []
  | c :: cs => if isWs c then skipWs cs else c :: cs

/-- Decimal digit test. -/
def isDigit (c : Char) : Bool := 48 ≤ c.toNat && c.toNat ≤ 57

/-- The character of a single decimal digit. -/
def digitChar (n : Nat) : Char := Char.ofNat (48 + n)

/-- Lower-case hexadecimal digit character, as emitted by
JSON.stringify's control-character escapes. -/
def hexDigitChar (n : Nat) : Char :=
  if n < 10 then Char.ofNat (48 + n) else Char.ofNat (87 + n)

/-- Decimal digits of a natural number, most significant first,
in front of an accumulator. -/
def natCharsAux (n : Nat) (acc : List Char) : List Char :=
  if h : n < 10 then digitChar n :: acc
  else natCharsAux (n / 10) (digitChar (n % 10) :: acc)
  termination_by n
  decreasing_by exact Nat.div_lt_self (by omega) (by omega)

/-- Decimal digits of a natural number, most significant first. -/
def natChars (n : Nat) : List Char := natCharsAux n []

/-- The characters `JSON.stringify` emits for an integer. -/
def intChars (n : Int) : List Char :=
  if n < 0 then '-' :: natChars n.natAbs else natChars n.toNat

/-- The escape `JSON.stringify` applies to one character of a string:
`\"`, `\\`, the short control escapes, `\u00xx` for the remaining control
characters, and every other character verbatim. -/
def escChar (c : Char) : List Char :=
  if c = '"' then ['\\', '"']
  else if c = '\\' then ['\\', '\\']
  else if c = '\x08' then ['\\', 'b']
  else if c = '\x09' then ['\\', 't']
  else if c = '\x0a' then ['\\', 'n']
  else if c = '\x0c' then ['\\', 'f']
  else if c = '\x0d' then ['\\', 'r']
  else if c.toNat < 32 then
    ['\\', 'u', '0', '0', hexDigitChar (c.toNat / 16), hexDigitChar (c.toNat % 16)]
  else [c]

/-- Escape a whole character list. -/
def escChars : List Char → List Char
  | [] => []
  | c :: cs => escChar c ++ escChars cs

/-- The indentation `JSON.stringify(·, null, 2)` emits at nesting depth `d`. -/
def indentC (d : Nat) : List Char := List.replicate (2 * d) ' '

mutual

/-- The characters `JSON.stringify(v, null, 2)` produces for `v` printed at
nesting depth `d`. -/
def emitV : Nat → JValue → List Char
  | _, .null => ['n', 'u', 'l', 'l']
  | _, .bool true => ['t', 'r', 'u', 'e']
  | _, .bool false => ['f', 'a', 'l', 's', 'e']
  | _, .num n => intChars n
  | _, .str s => '"' :: (escChars s.data ++ ['"'])
  | _, .arr [] => ['[', ']']
  | d, .arr (x :: xs) =>
    '[' :: '\n' :: (emitElems (d + 1) x xs ++ '\n' :: (indentC d ++ [']']))
  | _, .obj [] => [lb, rb]
  | d, .obj (f :: fs) =>
    lb :: '\n' :: (emitFields (d + 1) f fs ++ '\n' :: (indentC d ++ [rb]))
  termination_by _ v => sizeOf v
  decreasing_by all_goals (try rcases f with ⟨fk, fv⟩) <;> simp_arith

/-- Comma-and-newline separated array elements, each on its own indented
line. -/
def emitElems : Nat → JValue → List JValue → List Char
  | d, x, [] => indentC d ++ emitV d x
  | d, x, y :: ys => indentC d ++ emitV d x ++ ',' :: '\n' :: emitElems d y ys
  termination_by _ x xs => sizeOf x + sizeOf xs
  decreasing_by all_goals simp_arith

/-- Comma-and-newline separated object members, each on its own indented
line as `"key": value`. -/
def emitFields : Nat → (String × JValue) → List (String × JValue) → List Char
  | d, kv, [] =>
    indentC d ++ '"' :: (escChars kv.1.data ++ '"' :: ':' :: ' ' :: emitV d kv.2)
  | d, kv, f :: fs =>
    indentC d ++ '"' :: (escChars kv.1.data ++ '"' :: ':' :: ' ' :: emitV d kv.2)
      ++ ',' :: '\n' :: emitFields d f fs
  termination_by _ kv fs => sizeOf kv.2 + sizeOf fs
  decreasing_by all_goals (try rcases f with ⟨fk, fv⟩) <;> simp_arith

end

/-- `JSON.stringify(v, null, 2)`. -/
def stringify (v : JValue) : String := String.mk (emitV 0 v)

/-- Strip an exact expected sequence of characters. -/
def stripPref : List Char → List Char → Option (List Char)
  | [], cs => some cs
  | _ :: _, [] => none
  | p :: ps, c :: cs => if c = p then stripPref ps cs else none

/-- Value of a hexadecimal digit character. -/
def hexVal (c : Char) : Option Nat :=
  if 48 ≤ c.toNat ∧ c.toNat ≤ 57 then some (c.toNat - 48)
  else if 97 ≤ c.toNat ∧ c.toNat ≤ 102 then some (c.toNat - 87)
  else if 65 ≤ c.toNat ∧ c.toNat ≤ 70 then some (c.toNat - 55)
  else none

/-- Parse the body of a JSON string literal (the opening quote already
consumed), accumulating decoded characters in reverse. Surrogate escapes are
not modelled (the serializer never emits them). -/
def parseStrAux : List Char → List Char → Option (String × List Char)
  | _, [] => none
  | acc, c :: cs =>
    if c = '"' then some (String.mk acc.reverse, cs)
    else if c = '\\' then
      match cs with
      | [] => none
      | e :: cs' =>
        if e = '"' then parseStrAux ('"' :: acc) cs'
        else if e = '\\' then parseStrAux ('\\' :: acc) cs'
        else if e = '/' then parseStrAux ('/' :: acc) cs'
        else if e = 'b' then parseStrAux ('\x08' :: acc) cs'
        else if e = 'f' then parseStrAux ('\x0c' :: acc) cs'
        else if e = 'n' then parseStrAux ('\x0a' :: acc) cs'
        else if e = 'r' then parseStrAux ('\x0d' :: acc) cs'
        else if e = 't' then parseStrAux ('\x09' :: acc) cs'
        else if e = 'u' then
          match cs' with
          | h1 :: h2 :: h3 :: h4 :: cs'' =>
            match hexVal h1, hexVal h2, hexVal h3, hexVal h4 with
            | some a, some b, some c2, some d2 =>
              let n := ((a * 16 + b) * 16 + c2) * 16 + d2
              if n < 55296 ∨ (57343 < n ∧ n < 1114112) then
                parseStrAux (Char.ofNat n :: acc) cs''
              else none
            | _, _, _, _ => none
          | _ => none
        else none
    else parseStrAux (c :: acc) cs

/-- Accumulate the value of a run of decimal digits. -/
def digitsVal : List Char → Nat → Nat
  | [], acc => acc
  | c :: cs, acc => digitsVal cs (acc * 10 + (c.toNat - 48))

/-- Parse a nonempty run of decimal digits. -/
def parseNat (cs : List Char) : Option (Nat × List Char) :=
  match cs.takeWhile isDigit with
  | [] => none
  | ds => some (digitsVal ds 0, cs.dropWhile isDigit)

mutual

/-- Fueled recursive-descent JSON value parser. -/
def parseV : Nat → List Char → Option (JValue × List Char)
  | 0, _ => none
  | Nat.succ f, cs =>
    match skipWs cs with
    | [] => none
    | c :: cs' =>
      if c = 'n' then (stripPref ['u', 'l', 'l'] cs').map (fun r => (.null, r))
      else if c = 't' then (stripPref ['r', 'u', 'e'] cs').map (fun r => (.bool true, r))
      else if c = 'f' then (stripPref ['a', 'l', 's', 'e'] cs').map (fun r => (.bool false, r))
      else if c = '"' then (parseStrAux [] cs').map (fun p => (.str p.1, p.2))
      else if c = '-' then
        match parseNat cs' with
        | some (m, r) => some (.num (-(m : Int)), r)
        | none => none
      else if isDigit c then
        match parseNat (c :: cs') with
        | some (m, r) => some (.num (m : Int), r)
        | none => none
      else if c = '[' then
        match skipWs cs' with
        | [] => none
        | d :: r => if d = ']' then some (.arr [], r)
                    else (parseElems f cs').map (fun p => (.arr p.1, p.2))
      else if c = lb then
        match skipWs cs' with
        | [] => none
        | d :: r => if d = rb then some (.obj [], r)
                    else (parseFields f cs').map (fun p => (.obj p.1, p.2))
      else none

/-- Parse the elements of a nonempty array, consuming the closing bracket. -/
def parseElems : Nat → List Char → Option (List JValue × List Char)
  | 0, _ => none
  | Nat.succ f, cs =>
    match parseV f cs with
    | none => none
    | some (v, r) =>
      match skipWs r with
      | [] => none
      | d :: r' =>
        if d = ',' then (parseElems f r').map (fun p => (v :: p.1, p.2))
        else if d = ']' then some ([v], r')
        else none

/-- Parse the members of a nonempty object, consuming the closing brace. -/
def parseFields : Nat → List Char → Option (List (String × JValue) × List Char)
  | 0, _ => none
  | Nat.succ f, cs =>
    match skipWs cs with
    | [] => none
    | c :: cs' =>
      if c = '"' then
        match parseStrAux [] cs' with
        | none => none
        | some (k, r) =>
          match skipWs r with
          | ':' :: r' =>
            match parseV f r' with
            | none => none
            | some (v, r2) =>
              match skipWs r2 with
              | [] => none
              | d :: r3 =>
                if d = ',' then (parseFields f r3).map (fun p => ((k, v) :: p.1, p.2))
                else if d = rb then some ([(k, v)], r3)
                else none
          | _ => none
      else none

end

/-- `JSON.parse`: parse a complete JSON text (only trailing whitespace may
remain). -/
def parseJson (s : String) : Option JValue :=
  match parseV (s.data.length + 1) s.data with
  | some (v, r) => if skipWs r = [] then some v else none
  | none => none

/-! ## The store (`src/db/store.js`) -/

/-- The backing file: `none` when the file is missing, `some s` when its
full contents are `s`. -/
abbrev FS := Option String

/-- `read()`: read the whole file and `JSON.parse` it; `none` models the
rejected promise (missing file or invalid JSON). -/
def read (fs : FS) : Option JValue :=
  match fs with
  | none => none
  | some s => parseJson s

/-- `write(db)`: overwrite the file with `JSON.stringify(db, null, 2)`
(the success path; `create` threads an explicit write-failure flag). -/
def write (db : JValue) : FS := some (stringify db)

/-- `init()`: if the file is inaccessible, write the empty-mapping
encoding; otherwise leave it untouched. -/
def init (fs : FS) : FS :=
  match fs with
  | none => write (.obj [])
  | some s => some s

/-- JavaScript property lookup on an association-list object
(first binding wins; keys are unique in JavaScript objects). -/
def lookupField : List (String × JValue) → String → Option JValue
  | [], _ => none
  | (k, v) :: fields, key => if k = key then some v else lookupField fields key

/-- `db[key]` for an arbitrary parsed value: a real property for objects,
`undefined` (here `none`) otherwise.  (String/array index properties such
as `"abc"["0"]` are not modelled; no claim touches them.) -/
def jGet : JValue → String → Option JValue
  | .obj fields, key => lookupField fields key
  | _, _ => none

/-- Does the object own the key? -/
def hasField : List (String × JValue) → String → Bool
  | [], _ => false
  | (k, _) :: fields, key => k == key || hasField fields key

/-- JavaScript property assignment `o[key] = v`: update the existing
binding in place, or append a fresh one. -/
def setField : List (String × JValue) → String → JValue → List (String × JValue)
  | [], key, v => [(key, v)]
  | (k, w) :: fields, key, v =>
    if k = key then (key, v) :: fields else (k, w) :: setField fields key v

/-- The object literal `\x7b ...base, ...data \x7d`: spread the `data`
properties one at a time onto `base`, later assignments overwriting
earlier ones in place, as JavaScript does. -/
def spreadInto (base data : List (String × JValue)) : List (String × JValue) :=
  data.foldl (fun acc kv => setField acc kv.1 kv.2) base

/-- One step of the `reduce` in `create`:
`typeof it?.id === "number" ? it.id : 0`. -/
def numericIdOf (it : JValue) : Int :=
  match it with
  | .obj fields =>
    match lookupField fields "id" with
    | some (.num n) => n
    | _ => 0
  | _ => 0

/-- The `nextId` computation of `create`:
`items.reduce((max, it) => Math.max(max, numericIdOf it), 0) + 1`. -/
def nextId (items : List JValue) : Int :=
  items.foldl (fun mx it => max mx (numericIdOf it)) 0 + 1

/-- `db[collection] ?? []` (the nullish-coalescing default): the stored
value unless the key is absent (`undefined`) or holds `null`. -/
def collValue (dbFields : List (String × JValue)) (collection : String) : JValue :=
  match lookupField dbFields collection with
  | none => .arr []
  | some .null => .arr []
  | some v => v

/-- Errors `create` can propagate: a strict-mode/array-method `TypeError`,
or a failed `fs.writeFile`. -/
inductive JsError where
  | typeError : JsError
  | writeError : JsError
deriving Repr, DecidableEq

/-- `create(collection, data)`.  The read is wrapped in `try/catch`
(failure yields the empty document `\x7b\x7d`); the collection defaults to
`[]`; `nextId` is computed by the `reduce`; the item is the literal
`\x7b id: nextId, ...data \x7d`; the item is pushed and the document
written.  `writeOk` says whether `fs.writeFile` succeeds; on failure the
error propagates (`.error .writeError`). -/
def create (writeOk : Bool) (fs : FS) (collection : String)
    (data : List (String × JValue)) : Except JsError (FS × List (String × JValue)) :=
  let db : JValue :=
    match read fs with
    | some v => v
    | none => .obj []
  match db with
  | .obj dbFields =>
    match collValue dbFields collection with
    | .arr items =>
      let item := spreadInto [("id", .num (nextId items))] data
      let db2 : JValue := .obj (setField dbFields collection (.arr (items ++ [.obj item])))
      if writeOk then .ok (write db2, item) else .error .writeError
    | _ => .error .typeError
  | _ => .error .typeError

/-- `getAll(collection)`: `try \x7b return db[collection] ?? [] \x7d
catch \x7b return [] \x7d`.  (A `null` document makes the property access
throw, which the same `catch` turns into `[]`, so folding it into the
`none` lookup is faithful.) -/
def getAll (fs : FS) (collection : String) : JValue :=
  match read fs with
  | none => .arr []
  | some db =>
    match jGet db collection with
    | none => .arr []
    | some .null => .arr []
    | some v => v

/-- Merging a patch onto an item, the patch's `id` being discarded. -/
def mergePatch (item : List (String × JValue)) (patch : List (String × JValue)) :
    List (String × JValue) :=
  patch.foldl (fun acc kv => if kv.1 = "id" then acc else setField acc kv.1 kv.2) item

/-- Does the item's `id` field hold exactly the given number? -/
def idMatches (it : JValue) (id : Int) : Bool :=
  match it with
  | .obj fields =>
    match lookupField fields "id" with
    | some (.num n) => n == id
    | _ => false
  | _ => false

/-- Find the first item whose `id` equals the given one and merge the
patch onto it, returning the rewritten list and the updated item. -/
def findAndPatch : List JValue → Int → List (String × JValue) →
    Option (List JValue × List (String × JValue))
  | [], _, _ => none
  | it :: rest, id, patch =>
    match it with
    | .obj fields =>
      if idMatches (.obj fields) id then
        some (.obj (mergePatch fields patch) :: rest, mergePatch fields patch)
      else
        (findAndPatch rest id patch).map (fun p => (it :: p.1, p.2))
    | _ => (findAndPatch rest id patch).map (fun p => (it :: p.1, p.2))

/-- Modelled from the spec: `updateItem` is not part of the store source
(`store.js` returns only `init`, `getAll`, `create`), so it is written from
§4.2 of the specification: read the document; if the collection or the id
is absent, return absent without modifying anything; otherwise merge the
patch fields onto the first item whose `id` equals the given id (the patch
never alters `id`), write the document and return the updated item; a read
or write failure resolves to absent (fail-soft throughout). -/
def updateItem (writeOk : Bool) (fs : FS) (collection : String) (id : Int)
    (patch : List (String × JValue)) : FS × Option (List (String × JValue)) :=
  match read fs with
  | none => (fs, none)
  | some (.obj dbFields) =>
    match lookupField dbFields collection with
    | some (.arr items) =>
      match findAndPatch items id patch with
      | none => (fs, none)
      | some (items2, updated) =>
        if writeOk then
          (write (.obj (setField dbFields collection (.arr items2))), some updated)
        else (fs, none)
    | _ => (fs, none)
  | some _ => (fs, none)

/-- The text `init` writes for a missing file: `JSON.stringify(\x7b\x7d, null, 2)`. -/
def emptyDocText : String := stringify (.obj [])

/-! ## Specification-side definitions (for refinement-style comparison) -/

/-- Written from the spec's words: "the item's `id` if it is a number,
else `0`". -/
def specIdOrZero (it : JValue) : Int :=
  match jGet it "id" with
  | some (.num n) => n
  | _ => 0

/-- Written from the spec's words: "max(existing numeric ids in that
collection, default 0)". -/
def specMaxId (items : List JValue) : Int :=
  (items.map specIdOrZero).foldr max 0

/-! ## Sizes (fuel bookkeeping for the parser) -/

mutual

/-- Node count of a JSON value. -/
def jsize : JValue → Nat
  | .null => 1
  | .bool _ => 1
  | .num _ => 1
  | .str _ => 1
  | .arr xs => 1 + lsizeJ xs
  | .obj fs => 1 + fsizeJ fs
  termination_by v => sizeOf v
  decreasing_by all_goals (try rcases f with ⟨fk, fv⟩) <;> simp_arith

/-- Node count of an array's elements. -/
def lsizeJ : List JValue → Nat
  | [] => 0
  | x :: xs => 1 + jsize x + lsizeJ xs
  termination_by l => sizeOf l
  decreasing_by all_goals simp_arith

/-- Node count of an object's members. -/
def fsizeJ : List (String × JValue) → Nat
  | [] => 0
  | kv :: fs => 1 + jsize kv.2 + fsizeJ fs
  termination_by l => sizeOf l
  decreasing_by all_goals (try rcases kv with ⟨fk, fv⟩) <;> simp_arith

end

theorem jsize_pos (v : JValue) : 1 ≤ jsize v := by
  cases v <;> simp [jsize]

/-! ## Whitespace lemmas -/

/-- Is every character JSON whitespace? -/
def wsOnly : List Char → Bool
  | [] => true
  | c :: cs => isWs c && wsOnly cs

/-- Does the list fail the predicate at its head (or end there)? -/
def headFails (p : Char → Bool) : List Char → Bool
  | [] => true
  | c :: _ => !p c

theorem skipWs_append_ws {w : List Char} (h : wsOnly w = true) (cs : List Char) :
    skipWs (w ++ cs) = skipWs cs := by
  induction w with
  | nil => rfl
  | cons c t ih =>
    simp only [wsOnly, Bool.and_eq_true] at h
    simp [skipWs, h.1, ih h.2]

theorem skipWs_cons_not_ws {c : Char} (h : isWs c = false) (cs : List Char) :
    skipWs (c :: cs) = c :: cs := by
  simp [skipWs, h]

theorem wsOnly_indentC (d : Nat) : wsOnly (indentC d) = true := by
  simp only [indentC]
  induction 2 * d with
  | zero => rfl
  | succ n ih => simpa [List.replicate_succ, wsOnly, isWs] using ih

/-! ## Decimal digit lemmas -/

theorem digitChar_facts : ∀ m, m < 10 →
    isDigit (digitChar m) = true ∧ (digitChar m).toNat = 48 + m ∧
    isWs (digitChar m) = false ∧ digitChar m ≠ ']' ∧ digitChar m ≠ 'n' ∧
    digitChar m ≠ 't' ∧ digitChar m ≠ 'f' ∧ digitChar m ≠ '"' ∧
    digitChar m ≠ '-' ∧ digitChar m ≠ '[' ∧ digitChar m ≠ lb ∧
    digitChar m ≠ rb := by decide

theorem natCharsAux_append (n : Nat) : ∀ acc, natCharsAux n acc = natChars n ++ acc := by
  induction n using Nat.strong_induction_on with
  | _ n ih =>
    intro acc
    by_cases h : n < 10
    · simp [natCharsAux, natChars, h]
    · have e1 : natCharsAux n acc = natCharsAux (n / 10) (digitChar (n % 10) :: acc) := by
        rw [natCharsAux, dif_neg h]
      have e2 : natCharsAux n [] = natCharsAux (n / 10) [digitChar (n % 10)] := by
        rw [natCharsAux, dif_neg h]
      have ihd := ih (n / 10) (Nat.div_lt_self (by omega) (by omega))
      have e3 : natChars n = natChars (n / 10) ++ [digitChar (n % 10)] := by
        rw [natChars, e2, ihd]
      rw [e1, ihd, e3]
      simp

theorem natChars_ge10 {n : Nat} (h : 10 ≤ n) :
    natChars n = natChars (n / 10) ++ [digitChar (n % 10)] := by
  rw [natChars, natCharsAux, dif_neg (by omega), natCharsAux_append]

theorem natChars_lt10 {n : Nat} (h : n < 10) : natChars n = [digitChar n] := by
  rw [natChars, natCharsAux, dif_pos h]

theorem natChars_digits (n : Nat) : ∀ c ∈ natChars n, isDigit c = true := by
  induction n using Nat.strong_induction_on with
  | _ n ih =>
    by_cases h : n < 10
    · rw [natChars_lt10 h]
      intro c hc
      rw [List.mem_singleton] at hc
      subst hc
      exact (digitChar_facts n h).1
    · rw [natChars_ge10 (by omega)]
      intro c hc
      rcases List.mem_append.mp hc with hc | hc
      · exact ih (n / 10) (Nat.div_lt_self (by omega) (by omega)) c hc
      · rw [List.mem_singleton] at hc
        subst hc
        exact (digitChar_facts _ (Nat.mod_lt n (by omega))).1

theorem natChars_head (n : Nat) :
    ∃ m t, m < 10 ∧ natChars n = digitChar m :: t := by
  induction n using Nat.strong_induction_on with
  | _ n ih =>
    by_cases h : n < 10
    · exact ⟨n, [], h, natChars_lt10 h⟩
    · obtain ⟨m, t, hm, ht⟩ := ih (n / 10) (Nat.div_lt_self (by omega) (by omega))
      exact ⟨m, t ++ [digitChar (n % 10)], hm, by rw [natChars_ge10 (by omega), ht]; rfl⟩

theorem digitsVal_append (xs ys : List Char) (a : Nat) :
    digitsVal (xs ++ ys) a = digitsVal ys (digitsVal xs a) := by
  induction xs generalizing a with
  | nil => rfl
  | cons c t ih => simp [digitsVal, ih]

theorem digitsVal_natChars (n : Nat) : ∀ a, digitsVal (natChars n) a =
    a * 10 ^ (natChars n).length + n := by
  induction n using Nat.strong_induction_on with
  | _ n ih =>
    intro a
    by_cases h : n < 10
    · rw [natChars_lt10 h]
      simp [digitsVal, (digitChar_facts n h).2.1]
    · rw [natChars_ge10 (by omega), digitsVal_append,
        ih (n / 10) (Nat.div_lt_self (by omega) (by omega)) a]
      simp only [digitsVal, (digitChar_facts (n % 10) (Nat.mod_lt n (by omega))).2.1,
        List.length_append, List.length_singleton]
      rw [pow_succ]
      have : 10 * (n / 10) + n % 10 = n := Nat.div_add_mod n 10
      ring_nf
      omega

theorem takeWhile_append_stop (p : Char → Bool) (l rest : List Char)
    (hl : ∀ c ∈ l, p c = true) (hr : headFails p rest = true) :
    (l ++ rest).takeWhile p = l ∧ (l ++ rest).dropWhile p = rest := by
  induction l with
  | nil =>
    cases rest with
    | nil => exact ⟨rfl, rfl⟩
    | cons c t =>
      simp only [headFails, Bool.not_eq_true'] at hr
      constructor
      · simp [List.takeWhile, hr]
      · simp [List.dropWhile, hr]
  | cons c t ih =>
    have hc := hl c (List.mem_cons_self c t)
    have := ih (fun x hx => hl x (List.mem_cons_of_mem c hx))
    constructor
    · simp [List.takeWhile, hc, this.1]
    · simp [List.dropWhile, hc, this.2]

theorem parseNat_natChars (n : Nat) (rest : List Char)
    (hr : headFails isDigit rest = true) :
    parseNat (natChars n ++ rest) = some (n, rest) := by
  obtain ⟨take_eq, drop_eq⟩ := takeWhile_append_stop isDigit (natChars n) rest
    (natChars_digits n) hr
  obtain ⟨m, t, hm, ht⟩ := natChars_head n
  rw [parseNat, take_eq, drop_eq, ht]
  simp only []
  rw [← ht, digitsVal_natChars]
  simp

/-! ## String-literal lemmas -/

theorem string_mk_data (s : String) : String.mk s.data = s := by
  rcases s with ⟨l⟩
  rfl

theorem hexVal_hexDigitChar : ∀ m, m < 16 → hexVal (hexDigitChar m) = some m := by
  decide

theorem parseStrAux_unicode (c : Char) (h8 : c.toNat < 32) (acc rest : List Char) :
    parseStrAux acc ('\\' :: 'u' :: '0' :: '0' :: hexDigitChar (c.toNat / 16) ::
      hexDigitChar (c.toNat % 16) :: rest) = parseStrAux (c :: acc) rest := by
  have hdm : c.toNat / 16 * 16 + c.toNat % 16 = c.toNat := by omega
  rw [parseStrAux.eq_def]
  simp [hexVal_hexDigitChar (c.toNat / 16) (by omega),
    hexVal_hexDigitChar (c.toNat % 16) (by omega),
    show hexVal '0' = some 0 from rfl, hdm]
  omega

theorem parseStrAux_esc (l : List Char) : ∀ acc rest,
    parseStrAux acc (escChars l ++ '"' :: rest) =
      some (String.mk (acc.reverse ++ l), rest) := by
  induction l with
  | nil =>
    intro acc rest
    rw [escChars, List.nil_append, parseStrAux.eq_def]
    simp
  | cons c t ih =>
    intro acc rest
    by_cases h1 : c = '"'
    · subst h1
      simp only [escChars, show escChar '"' = ['\\', '"'] from rfl, List.cons_append,
        List.nil_append, List.append_assoc]
      rw [parseStrAux.eq_def]
      simp [ih]
    · by_cases h2 : c = '\\'
      · subst h2
        simp only [escChars, show escChar '\\' = ['\\', '\\'] from rfl, List.cons_append,
          List.nil_append, List.append_assoc]
        rw [parseStrAux.eq_def]
        simp [ih]
      · by_cases h3 : c = '\x08'
        · subst h3
          simp only [escChars, show escChar '\x08' = ['\\', 'b'] from rfl, List.cons_append,
            List.nil_append, List.append_assoc]
          rw [parseStrAux.eq_def]
          simp [ih]
        · by_cases h4 : c = '\x09'
          · subst h4
            simp only [escChars, show escChar '\x09' = ['\\', 't'] from rfl, List.cons_append,
              List.nil_append, List.append_assoc]
            rw [parseStrAux.eq_def]
            simp [ih]
          · by_cases h5 : c = '\x0a'
            · subst h5
              simp only [escChars, show escChar '\x0a' = ['\\', 'n'] from rfl, List.cons_append,
                List.nil_append, List.append_assoc]
              rw [parseStrAux.eq_def]
              simp [ih]
            · by_cases h6 : c = '\x0c'
              · subst h6
                simp only [escChars, show escChar '\x0c' = ['\\', 'f'] from rfl, List.cons_append,
                  List.nil_append, List.append_assoc]
                rw [parseStrAux.eq_def]
                simp [ih]
              · by_cases h7 : c = '\x0d'
                · subst h7
                  simp only [escChars, show escChar '\x0d' = ['\\', 'r'] from rfl, List.cons_append,
                    List.nil_append, List.append_assoc]
                  rw [parseStrAux.eq_def]
                  simp [ih]
                · by_cases h8 : c.toNat < 32
                  · simp only [escChars, escChar, if_neg h1, if_neg h2, if_neg h3,
                      if_neg h4, if_neg h5, if_neg h6, if_neg h7, if_pos h8,
                      List.cons_append, List.nil_append]
                    rw [parseStrAux_unicode c h8, ih]
                    simp
                  · simp only [escChars, escChar, if_neg h1, if_neg h2, if_neg h3,
                      if_neg h4, if_neg h5, if_neg h6, if_neg h7, if_neg h8,
                      List.cons_append, List.nil_append]
                    rw [parseStrAux.eq_def]
                    simp only [if_neg h1, if_neg h2]
                    rw [ih]
                    simp

/-! ## Parser whitespace lemmas -/

theorem parseV_ws (f : Nat) {w : List Char} (h : wsOnly w = true) (cs : List Char) :
    parseV f (w ++ cs) = parseV f cs := by
  cases f with
  | zero => rfl
  | succ f => simp only [parseV, skipWs_append_ws h]

theorem parseElems_ws (f : Nat) {w : List Char} (h : wsOnly w = true) (cs : List Char) :
    parseElems f (w ++ cs) = parseElems f cs := by
  cases f with
  | zero => rfl
  | succ f => simp only [parseElems, parseV_ws f h]

theorem parseFields_ws (f : Nat) {w : List Char} (h : wsOnly w = true) (cs : List Char) :
    parseFields f (w ++ cs) = parseFields f cs := by
  cases f with
  | zero => rfl
  | succ f => simp only [parseFields, skipWs_append_ws h]

theorem isWs_not_digit {c : Char} (h : isWs c = true) : isDigit c = false := by
  simp only [isWs, Bool.or_eq_true, beq_iff_eq] at h
  rcases h with ((h | h) | h) | h <;> subst h <;> decide

theorem headFails_ws_close {w : List Char} (hw : wsOnly w = true) {c : Char}
    (hc : isDigit c = false) (rest : List Char) :
    headFails isDigit (w ++ c :: rest) = true := by
  cases w with
  | nil => simp [headFails, hc]
  | cons a t =>
    simp only [wsOnly, Bool.and_eq_true] at hw
    simp [headFails, isWs_not_digit hw.1]

/-! ## Shape of the emitted text -/

theorem emitV_head (d : Nat) (v : JValue) :
    ∃ c t, emitV d v = c :: t ∧ isWs c = false ∧ c ≠ ']' ∧ c ≠ rb := by
  cases v with
  | null => exact ⟨'n', ['u', 'l', 'l'], by simp [emitV], by decide, by decide, by decide⟩
  | bool b =>
    cases b with
    | true => exact ⟨'t', ['r', 'u', 'e'], by simp [emitV], by decide, by decide, by decide⟩
    | false => exact ⟨'f', ['a', 'l', 's', 'e'], by simp [emitV], by decide, by decide, by decide⟩
  | num n =>
    by_cases hn : n < 0
    · exact ⟨'-', natChars n.natAbs, by simp [emitV, intChars, if_pos hn], by decide,
        by decide, by decide⟩
    · obtain ⟨m, t, hm, ht⟩ := natChars_head n.toNat
      obtain ⟨_, _, h3, h4, _⟩ := digitChar_facts m hm
      refine ⟨digitChar m, t, ?_, h3, h4, ?_⟩
      · simp only [emitV, intChars, if_neg hn, ht]
      · exact (digitChar_facts m hm).2.2.2.2.2.2.2.2.2.2.2
  | str s => exact ⟨'"', escChars s.data ++ ['"'], by simp [emitV], by decide, by decide, by decide⟩
  | arr xs =>
    cases xs with
    | nil => exact ⟨'[', [']'], by simp [emitV], by decide, by decide, by decide⟩
    | cons x t =>
      exact ⟨'[', '\n' :: (emitElems (d + 1) x t ++ '\n' :: (indentC d ++ [']'])),
        by simp [emitV], by decide, by decide, by decide⟩
  | obj fs =>
    cases fs with
    | nil => exact ⟨lb, [rb], by simp [emitV], by decide, by decide, by decide⟩
    | cons kv t =>
      exact ⟨lb, '\n' :: (emitFields (d + 1) kv t ++ '\n' :: (indentC d ++ [rb])),
        by simp [emitV], by decide, by decide, by decide⟩

theorem emitElems_decomp (d : Nat) (x : JValue) (xs : List JValue) :
    ∃ suffix, emitElems d x xs = indentC d ++ (emitV d x ++ suffix) := by
  cases xs with
  | nil => exact ⟨[], by simp [emitElems]⟩
  | cons y ys => exact ⟨',' :: '\n' :: emitElems d y ys, by simp [emitElems]⟩

theorem emitFields_decomp (d : Nat) (kv : String × JValue) (fs : List (String × JValue)) :
    ∃ suffix, emitFields d kv fs =
      indentC d ++ ('"' :: (escChars kv.1.data ++ '"' :: ':' :: ' ' :: emitV d kv.2 ++ suffix)) := by
  cases fs with
  | nil => exact ⟨[], by simp [emitFields]⟩
  | cons f t => exact ⟨',' :: '\n' :: emitFields d f t, by simp [emitFields]⟩

theorem skipWs_newline (cs : List Char) : skipWs ('\n' :: cs) = skipWs cs := by
  simp [skipWs, isWs]

theorem skipWs_emitV_append (d : Nat) (x : JValue) (z : List Char) :
    skipWs (emitV d x ++ z) = emitV d x ++ z := by
  obtain ⟨c0, t0, he0, hws0, _, _⟩ := emitV_head d x
  rw [he0, List.cons_append, skipWs_cons_not_ws hws0]

theorem parseElems_newline (f : Nat) (cs : List Char) :
    parseElems f ('\n' :: cs) = parseElems f cs :=
  parseElems_ws f (w := ['\n']) (by decide) cs

theorem parseFields_newline (f : Nat) (cs : List Char) :
    parseFields f ('\n' :: cs) = parseFields f cs :=
  parseFields_ws f (w := ['\n']) (by decide) cs

theorem parseV_space (f : Nat) (cs : List Char) :
    parseV f (' ' :: cs) = parseV f cs :=
  parseV_ws f (w := [' ']) (by decide) cs

theorem wsOnly_nl_indent (d : Nat) : wsOnly ('\n' :: indentC d) = true := by
  simp [wsOnly, isWs, wsOnly_indentC]

/-- Dispatch of the value parser on an opening bracket. -/
theorem parseV_bracket (f : Nat) (cs : List Char) :
    parseV (f + 1) ('[' :: cs) =
      (match skipWs cs with
       | [] => none
       | c :: _ => if c = ']' then some (.arr [], (skipWs cs).tail)
                   else (parseElems f cs).map (fun p => (.arr p.1, p.2))) := by
  simp only [parseV, skipWs_cons_not_ws (by decide : isWs '[' = false)]
  simp [isDigit]
  rcases skipWs cs with _ | ⟨c, r⟩
  · rfl
  · simp

/-- Dispatch of the value parser on an opening brace. -/
theorem parseV_brace (f : Nat) (cs : List Char) :
    parseV (f + 1) (lb :: cs) =
      (match skipWs cs with
       | [] => none
       | c :: _ => if c = rb then some (.obj [], (skipWs cs).tail)
                   else (parseFields f cs).map (fun p => (.obj p.1, p.2))) := by
  simp only [parseV, skipWs_cons_not_ws (by decide : isWs lb = false)]
  simp [isDigit, lb, rb]
  rcases skipWs cs with _ | ⟨c, r⟩
  · rfl
  · simp [lb, rb]

/-! ## The parse/emit round trip -/

theorem parse_emit_round : ∀ f : Nat,
    (∀ v d rest, jsize v ≤ f → headFails isDigit rest = true →
        parseV f (emitV d v ++ rest) = some (v, rest))
    ∧ (∀ x xs d w rest, lsizeJ (x :: xs) ≤ f → wsOnly w = true →
        parseElems f (emitElems d x xs ++ (w ++ ']' :: rest)) = some (x :: xs, rest))
    ∧ (∀ kv fs d w rest, fsizeJ (kv :: fs) ≤ f → wsOnly w = true →
        parseFields f (emitFields d kv fs ++ (w ++ rb :: rest)) = some (kv :: fs, rest)) := by
  intro f
  induction f with
  | zero =>
    refine ⟨?_, ?_, ?_⟩
    · intro v d rest hsz _
      exact absurd hsz (by have := jsize_pos v; omega)
    · intro x xs d w rest hsz _
      exact absurd hsz (by simp [lsizeJ])
    · intro kv fs d w rest hsz _
      exact absurd hsz (by simp [fsizeJ])
  | succ f ih =>
    obtain ⟨ihV, ihE, ihF⟩ := ih
    refine ⟨?_, ?_, ?_⟩
    · intro v d rest hsz hdig
      cases v with
      | null => simp [parseV, emitV, skipWs, isWs, stripPref]
      | bool b => cases b <;> simp [parseV, emitV, skipWs, isWs, stripPref]
      | num n =>
        by_cases hn : n < 0
        · simp only [emitV, intChars, if_pos hn, List.cons_append]
          simp [parseV, skipWs, isWs, isDigit, parseNat_natChars _ _ hdig]
          rw [abs_of_neg hn]
          ring
        · obtain ⟨m, t, hm, ht⟩ := natChars_head n.toNat
          obtain ⟨hd1, hd2, hd3, hd4, hd5, hd6, hd7, hd8, hd9, hd10, hd11, hd12⟩ :=
            digitChar_facts m hm
          have htn : ((n.toNat : Nat) : Int) = n := by omega
          have hemit : emitV d (.num n) = natChars n.toNat := by
            simp [emitV, intChars, if_neg hn]
          rw [hemit, ht, List.cons_append]
          simp only [parseV, skipWs_cons_not_ws hd3]
          simp only [if_neg hd5, if_neg hd6, if_neg hd7, if_neg hd8, if_neg hd9, if_pos hd1]
          rw [← List.cons_append, ← ht, parseNat_natChars _ _ hdig]
          simp [htn]
      | str s =>
        have hemit : emitV d (.str s) ++ rest = '"' :: (escChars s.data ++ '"' :: rest) := by
          simp [emitV]
        rw [hemit]
        simp only [parseV, skipWs_cons_not_ws (by decide : isWs '"' = false)]
        simp [parseStrAux_esc, string_mk_data]
      | arr xs =>
        cases xs with
        | nil => simp [parseV, emitV, skipWs, isWs, stripPref, isDigit]
        | cons x xs =>
          obtain ⟨sfx, hsfx⟩ := emitElems_decomp (d + 1) x xs
          have hlsz : lsizeJ (x :: xs) ≤ f := by
            simp only [jsize] at hsz; omega
          have hinput : emitV d (.arr (x :: xs)) ++ rest
              = '[' :: ('\n' :: (emitElems (d + 1) x xs
                  ++ ('\n' :: (indentC d ++ (']' :: rest))))) := by
            simp [emitV]
          obtain ⟨c0, t0, he0, hws0, hne0, _⟩ := emitV_head (d + 1) x
          have hskip : skipWs ('\n' :: (emitElems (d + 1) x xs
                  ++ ('\n' :: (indentC d ++ (']' :: rest)))))
              = c0 :: (t0 ++ (sfx ++ ('\n' :: (indentC d ++ (']' :: rest))))) := by
            rw [skipWs_newline, hsfx]
            simp only [List.append_assoc, List.cons_append]
            rw [skipWs_append_ws (wsOnly_indentC (d + 1)), he0, List.cons_append,
              skipWs_cons_not_ws hws0]
          have hih := ihE x xs (d + 1) ('\n' :: indentC d) rest hlsz (wsOnly_nl_indent d)
          simp only [List.cons_append, List.append_assoc] at hih
          rw [hinput, parseV_bracket, hskip]
          simp only [if_neg hne0]
          rw [parseElems_newline, hih]
          rfl
      | obj fs =>
        cases fs with
        | nil => simp [parseV, emitV, skipWs, isWs, stripPref, isDigit, lb, rb]
        | cons kv fs =>
          obtain ⟨sfx, hsfx⟩ := emitFields_decomp (d + 1) kv fs
          have hfsz : fsizeJ (kv :: fs) ≤ f := by
            simp only [jsize] at hsz; omega
          have hinput : emitV d (.obj (kv :: fs)) ++ rest
              = lb :: ('\n' :: (emitFields (d + 1) kv fs
                  ++ ('\n' :: (indentC d ++ (rb :: rest))))) := by
            simp [emitV]
          have hskip : skipWs ('\n' :: (emitFields (d + 1) kv fs
                  ++ ('\n' :: (indentC d ++ (rb :: rest)))))
              = '"' :: (escChars kv.1.data ++ '"' :: ':' :: ' ' :: emitV (d + 1) kv.2
                  ++ sfx ++ ('\n' :: (indentC d ++ (rb :: rest)))) := by
            rw [skipWs_newline, hsfx]
            simp only [List.append_assoc, List.cons_append]
            rw [skipWs_append_ws (wsOnly_indentC (d + 1)),
              skipWs_cons_not_ws (by decide : isWs '"' = false)]
          have hih := ihF kv fs (d + 1) ('\n' :: indentC d) rest hfsz (wsOnly_nl_indent d)
          simp only [List.cons_append, List.append_assoc] at hih
          rw [hinput, parseV_brace, hskip]
          simp only [if_neg (by decide : ¬('"' = rb))]
          rw [parseFields_newline, hih]
          rfl
    · intro x xs d w rest hsz hws
      cases xs with
      | nil =>
        have hjsz : jsize x ≤ f := by simp only [lsizeJ] at hsz; omega
        have hdig : headFails isDigit (w ++ ']' :: rest) = true :=
          headFails_ws_close hws (by decide) rest
        have hx := ihV x d (w ++ ']' :: rest) hjsz hdig
        simp only [emitElems, List.append_assoc]
        rw [parseElems_ws (f + 1) (wsOnly_indentC d)]
        simp only [parseElems, hx]
        rw [skipWs_append_ws hws, skipWs_cons_not_ws (by decide : isWs ']' = false)]
        simp
      | cons y ys =>
        have hjsz : jsize x ≤ f := by simp only [lsizeJ] at hsz; omega
        have hysz : lsizeJ (y :: ys) ≤ f := by
          simp only [lsizeJ] at hsz ⊢
          have := jsize_pos x
          omega
        have hx := ihV x d (',' :: '\n' :: (emitElems d y ys ++ (w ++ ']' :: rest))) hjsz
          (by simp [headFails, isDigit])
        have hy := ihE y ys d w rest hysz hws
        simp only [emitElems, List.append_assoc, List.cons_append]
        rw [parseElems_ws (f + 1) (wsOnly_indentC d)]
        simp only [parseElems]
        rw [hx]
        simp only [skipWs_cons_not_ws (by decide : isWs ',' = false)]
        simp only [reduceIte]
        rw [parseElems_newline, hy]
        simp
    · intro kv fs d w rest hsz hws
      cases fs with
      | nil =>
        have hjsz : jsize kv.2 ≤ f := by simp only [fsizeJ] at hsz; omega
        have hdig : headFails isDigit (w ++ rb :: rest) = true :=
          headFails_ws_close hws (by decide) rest
        have hx := ihV kv.2 d (w ++ rb :: rest) hjsz hdig
        simp only [emitFields, List.append_assoc, List.cons_append]
        rw [parseFields_ws (f + 1) (wsOnly_indentC d)]
        simp only [parseFields, skipWs_cons_not_ws (by decide : isWs '"' = false)]
        simp only [reduceIte]
        rw [parseStrAux_esc]
        simp only [List.nil_append, string_mk_data]
        rw [skipWs_cons_not_ws (by decide : isWs ':' = false)]
        simp [parseV_space, hx, skipWs_append_ws hws, string_mk_data,
          show skipWs (rb :: rest) = rb :: rest
            from skipWs_cons_not_ws (show isWs rb = false by decide) rest,
          show ¬(rb = ',') from by decide]
      | cons kv2 fs2 =>
        have hjsz : jsize kv.2 ≤ f := by simp only [fsizeJ] at hsz; omega
        have hfsz2 : fsizeJ (kv2 :: fs2) ≤ f := by
          simp only [fsizeJ] at hsz ⊢
          have := jsize_pos kv.2
          omega
        have hx := ihV kv.2 d (',' :: '\n' :: (emitFields d kv2 fs2 ++ (w ++ rb :: rest)))
          hjsz (by simp [headFails, isDigit])
        have hy := ihF kv2 fs2 d w rest hfsz2 hws
        simp only [emitFields, List.append_assoc, List.cons_append]
        rw [parseFields_ws (f + 1) (wsOnly_indentC d)]
        simp only [parseFields, skipWs_cons_not_ws (by decide : isWs '"' = false)]
        simp only [reduceIte]
        rw [parseStrAux_esc]
        simp only [List.nil_append, string_mk_data]
        rw [skipWs_cons_not_ws (by decide : isWs ':' = false)]
        simp [parseV_space, hx, string_mk_data, parseFields_newline, hy,
          show ∀ cs : List Char, skipWs (',' :: cs) = ',' :: cs
            from fun cs => skipWs_cons_not_ws (show isWs ',' = false by decide) cs]

/-- The emitted text is at least as long as the node count, so the
`(length + 1)` fuel of `parseJson` is always sufficient. -/
theorem emit_len : ∀ n : Nat,
    (∀ d v, jsize v ≤ n → jsize v ≤ (emitV d v).length)
    ∧ (∀ d x xs, lsizeJ (x :: xs) ≤ n → 1 ≤ d → lsizeJ (x :: xs) ≤ (emitElems d x xs).length)
    ∧ (∀ d kv fs, fsizeJ (kv :: fs) ≤ n → 1 ≤ d →
        fsizeJ (kv :: fs) ≤ (emitFields d kv fs).length) := by
  intro n
  induction n with
  | zero =>
    refine ⟨?_, ?_, ?_⟩
    · intro d v hsz
      exact absurd hsz (by have := jsize_pos v; omega)
    · intro d x xs hsz _
      exact absurd hsz (by simp [lsizeJ])
    · intro d kv fs hsz _
      exact absurd hsz (by simp [fsizeJ])
  | succ n ih =>
    obtain ⟨ihV, ihE, ihF⟩ := ih
    refine ⟨?_, ?_, ?_⟩
    · intro d v hsz
      cases v with
      | null => simp [jsize, emitV]
      | bool b => cases b <;> simp [jsize, emitV]
      | num m =>
        have : 1 ≤ (intChars m).length := by
          rw [intChars]
          by_cases hm : m < 0
          · simp [if_pos hm]
          · obtain ⟨k, t, hk, ht⟩ := natChars_head m.toNat
            simp [if_neg hm, ht]
        simp only [jsize, emitV]
        omega
      | str s => simp [jsize, emitV]
      | arr xs =>
        cases xs with
        | nil => simp [jsize, lsizeJ, emitV]
        | cons x t =>
          have hlsz : lsizeJ (x :: t) ≤ n := by simp only [jsize] at hsz; omega
          have := ihE (d + 1) x t hlsz (by omega)
          simp only [jsize, emitV, List.length_cons, List.length_append]
          omega
      | obj fs =>
        cases fs with
        | nil => simp [jsize, fsizeJ, emitV]
        | cons kv t =>
          have hfsz : fsizeJ (kv :: t) ≤ n := by simp only [jsize] at hsz; omega
          have := ihF (d + 1) kv t hfsz (by omega)
          simp only [jsize, emitV, List.length_cons, List.length_append]
          omega
    · intro d x xs hsz hd
      cases xs with
      | nil =>
        have hj : jsize x ≤ n := by simp only [lsizeJ] at hsz; omega
        have := ihV d x hj
        simp only [lsizeJ, emitElems, List.length_append, indentC, List.length_replicate] at *
        omega
      | cons y ys =>
        have hj : jsize x ≤ n := by simp only [lsizeJ] at hsz; omega
        have hl : lsizeJ (y :: ys) ≤ n := by
          simp only [lsizeJ] at hsz ⊢
          have := jsize_pos x
          omega
        have h1 := ihV d x hj
        have h2 := ihE d y ys hl hd
        simp only [lsizeJ, emitElems, List.length_append, List.length_cons, indentC,
          List.length_replicate] at *
        omega
    · intro d kv fs hsz hd
      cases fs with
      | nil =>
        have hj : jsize kv.2 ≤ n := by simp only [fsizeJ] at hsz; omega
        have := ihV d kv.2 hj
        simp only [fsizeJ, emitFields, List.length_append, List.length_cons, indentC,
          List.length_replicate] at *
        omega
      | cons kv2 fs2 =>
        have hj : jsize kv.2 ≤ n := by simp only [fsizeJ] at hsz; omega
        have hl : fsizeJ (kv2 :: fs2) ≤ n := by
          simp only [fsizeJ] at hsz ⊢
          have := jsize_pos kv.2
          omega
        have h1 := ihV d kv.2 hj
        have h2 := ihF d kv2 fs2 hl hd
        simp only [fsizeJ, emitFields, List.length_append, List.length_cons, indentC,
          List.length_replicate] at *
        omega

/-- Full round trip at the text level: parsing the pretty-printed encoding
of any JSON value recovers it exactly. -/
theorem parseJson_stringify (v : JValue) : parseJson (stringify v) = some v := by
  have hlen : jsize v ≤ (emitV 0 v).length := (emit_len (jsize v)).1 0 v le_rfl
  have hmain := (parse_emit_round ((emitV 0 v).length + 1)).1 v 0 [] (by omega) rfl
  rw [List.append_nil] at hmain
  have hdata : (stringify v).data = emitV 0 v := rfl
  rw [parseJson, hdata, hmain]
  rfl

/-! ## Store-level lemmas -/

theorem read_write (v : JValue) : read (write v) = some v :=
  parseJson_stringify v

theorem read_emptyDocText : read (some emptyDocText) = some (.obj []) :=
  parseJson_stringify (.obj [])

theorem numericIdOf_eq_spec (it : JValue) : numericIdOf it = specIdOrZero it := by
  cases it <;> rfl

theorem foldr_max_seed (l : List Int) : ∀ a b : Int,
    l.foldr max (max a b) = max b (l.foldr max a) := by
  induction l with
  | nil => intro a b; exact max_comm a b
  | cons c t ih =>
    intro a b
    simp only [List.foldr_cons, ih a b]
    rw [max_left_comm]

theorem foldl_max_eq_foldr (items : List JValue) : ∀ a : Int,
    items.foldl (fun mx it => max mx (numericIdOf it)) a
      = (items.map numericIdOf).foldr max a := by
  induction items with
  | nil => intro a; rfl
  | cons x t ih =>
    intro a
    simp only [List.foldl_cons, List.map_cons, List.foldr_cons, ih (max a (numericIdOf x))]
    exact foldr_max_seed (List.map numericIdOf t) a (numericIdOf x)

theorem nextId_eq_spec (items : List JValue) : nextId items = 1 + specMaxId items := by
  rw [nextId, foldl_max_eq_foldr, specMaxId]
  have hmap : items.map specIdOrZero = items.map numericIdOf := by
    simp [numericIdOf_eq_spec]
  rw [hmap, Int.add_comm]

theorem foldl_max_le_seed (items : List JValue) : ∀ a : Int,
    a ≤ items.foldl (fun mx it => max mx (numericIdOf it)) a := by
  induction items with
  | nil => intro a; exact le_refl a
  | cons x t ih =>
    intro a
    exact le_trans (le_max_left a (numericIdOf x)) (ih (max a (numericIdOf x)))

theorem foldl_max_bound {items : List JValue} {it : JValue} (hmem : it ∈ items) :
    ∀ a : Int, numericIdOf it ≤ items.foldl (fun mx i => max mx (numericIdOf i)) a := by
  induction items with
  | nil => cases hmem
  | cons x t ih =>
    intro a
    rcases List.mem_cons.mp hmem with h | h
    · subst h
      simp only [List.foldl_cons]
      exact le_trans (le_max_right a (numericIdOf it)) (foldl_max_le_seed t _)
    · simp only [List.foldl_cons]
      exact ih h _

theorem numericIdOf_lt_nextId {items : List JValue} {it : JValue} (hmem : it ∈ items) :
    numericIdOf it < nextId items := by
  have := foldl_max_bound hmem 0
  rw [nextId]
  omega

theorem lookupField_setField_self (fields : List (String × JValue)) (k : String) (v : JValue) :
    lookupField (setField fields k v) k = some v := by
  induction fields with
  | nil => simp [setField, lookupField]
  | cons kv t ih =>
    by_cases h : kv.1 = k
    · rcases kv with ⟨k0, v0⟩
      simp_all [setField, lookupField]
    · rcases kv with ⟨k0, v0⟩
      simp_all [setField, lookupField]

theorem lookupField_setField_other (fields : List (String × JValue)) (k k2 : String)
    (v : JValue) (h : k2 ≠ k) :
    lookupField (setField fields k v) k2 = lookupField fields k2 := by
  have h2 : ¬(k = k2) := fun he => h he.symm
  induction fields with
  | nil => simp [setField, lookupField, h2]
  | cons kv t ih =>
    rcases kv with ⟨k0, v0⟩
    by_cases h0 : k0 = k
    · subst h0
      simp [setField, lookupField, h2]
    · simp [setField, lookupField, h0, ih]

theorem hasField_false_head {k2 : String} {v2 : JValue} {t : List (String × JValue)}
    {k : String} (h : hasField ((k2, v2) :: t) k = false) :
    k2 ≠ k ∧ hasField t k = false := by
  simp only [hasField, Bool.or_eq_false_iff, beq_eq_false_iff_ne, ne_eq] at h
  exact ⟨h.1, h.2⟩

theorem lookupField_spreadInto (data : List (String × JValue)) :
    ∀ base k, hasField data k = false →
      lookupField (spreadInto base data) k = lookupField base k := by
  induction data with
  | nil => intro base k _; rfl
  | cons kv t ih =>
    intro base k hk
    rcases kv with ⟨k2, v2⟩
    obtain ⟨hne, ht⟩ := hasField_false_head hk
    rw [spreadInto, List.foldl_cons]
    have := ih (setField base k2 v2) k ht
    rw [spreadInto] at this
    rw [this, lookupField_setField_other _ _ _ _ (fun he => hne he.symm)]

theorem newItem_id (items : List JValue) (data : List (String × JValue))
    (hdata : hasField data "id" = false) :
    lookupField (spreadInto [("id", .num (nextId items))] data) "id"
      = some (.num (nextId items)) := by
  rw [lookupField_spreadInto data _ _ hdata]
  rfl

theorem mergePatch_id (patch : List (String × JValue)) : ∀ item,
    lookupField (mergePatch item patch) "id" = lookupField item "id" := by
  induction patch with
  | nil => intro item; rfl
  | cons kv t ih =>
    intro item
    rw [mergePatch, List.foldl_cons]
    by_cases h : kv.1 = "id"
    · rw [if_pos h]
      exact ih item
    · rw [if_neg h]
      have := ih (setField item kv.1 kv.2)
      rw [mergePatch] at this
      rw [this, lookupField_setField_other _ _ _ _ (fun he => h he.symm)]

/-- `create` on a successfully read object document with an array-valued
(or absent) collection: the single read-modify-write equation. -/
theorem create_spec (writeOk : Bool) (fs : FS) (collection : String)
    (data : List (String × JValue)) (dbFields : List (String × JValue))
    (items : List JValue)
    (h1 : read fs = some (.obj dbFields))
    (h2 : collValue dbFields collection = .arr items) :
    create writeOk fs collection data =
      if writeOk then
        .ok (write (.obj (setField dbFields collection
            (.arr (items ++ [.obj (spreadInto [("id", .num (nextId items))] data)])))),
          spreadInto [("id", .num (nextId items))] data)
      else .error .writeError := by
  rw [create, h1]
  simp only [h2]

/-- A failed read makes `create` behave exactly as on the empty document. -/
theorem create_read_fail (writeOk : Bool) (fs : FS) (collection : String)
    (data : List (String × JValue)) (h : read fs = none) :
    create writeOk fs collection data = create writeOk (some emptyDocText) collection data := by
  rw [create, h, create, read_emptyDocText]

/-! ## Claim theorems -/

/-- C1: for every document state whose target collection is absent or holds an
array, the identifier `create` assigns is `1 + max(existing numeric ids,
default 0)` — the max defaulting to `0` for an empty or absent collection —
and a payload without its own `id` field receives exactly that identifier in
the created item. -/
theorem claim_create_id_formula (fs : FS) (dbFields : List (String × JValue))
    (collection : String) (items : List JValue) (data : List (String × JValue))
    (h1 : read fs = some (.obj dbFields))
    (h2 : collValue dbFields collection = .arr items) :
    nextId items = 1 + specMaxId items
    ∧ (hasField data "id" = false →
        ∃ fs2, create true fs collection data
            = .ok (fs2, spreadInto [("id", .num (1 + specMaxId items))] data)
          ∧ lookupField (spreadInto [("id", .num (1 + specMaxId items))] data) "id"
            = some (.num (1 + specMaxId items))) := by
  refine ⟨nextId_eq_spec items, fun hdata => ?_⟩
  rw [← nextId_eq_spec items]
  exact ⟨write (.obj (setField dbFields collection
      (.arr (items ++ [.obj (spreadInto [("id", .num (nextId items))] data)])))),
    by rw [create_spec true fs collection data dbFields items h1 h2, if_pos rfl],
    newItem_id items data hdata⟩

/-- Witness for C1 at the empty document and an id-free payload. -/
theorem claim_create_id_formula_witness :
    nextId [] = 1 + specMaxId []
    ∧ (hasField [("login", .str "w")] "id" = false →
        ∃ fs2, create true (some emptyDocText) "users" [("login", .str "w")]
            = .ok (fs2, spreadInto [("id", .num (1 + specMaxId []))] [("login", .str "w")])
          ∧ lookupField (spreadInto [("id", .num (1 + specMaxId []))]
              [("login", .str "w")]) "id" = some (.num (1 + specMaxId []))) :=
  claim_create_id_formula (some emptyDocText) [] "users" [] [("login", .str "w")]
    read_emptyDocText rfl

/-- C3: a failing initial read is treated as the empty document and `create`
proceeds (succeeding when the write succeeds), while a failing final write
propagates to the caller as an error. -/
theorem claim_create_read_soft_write_hard :
    (∀ writeOk fs collection data, read fs = none →
        create writeOk fs collection data
          = create writeOk (some emptyDocText) collection data)
    ∧ (∀ fs collection data, read fs = none →
        ∃ fs2 item, create true fs collection data = .ok (fs2, item))
    ∧ (∀ fs dbFields collection items data,
        read fs = some (.obj dbFields) → collValue dbFields collection = .arr items →
        create false fs collection data = .error .writeError)
    ∧ (∀ fs collection data, read fs = none →
        create false fs collection data = .error .writeError) := by
  refine ⟨fun wOk fs c data h => create_read_fail wOk fs c data h, ?_, ?_, ?_⟩
  · intro fs c data h
    rw [create_read_fail true fs c data h,
      create_spec true (some emptyDocText) c data [] [] read_emptyDocText rfl]
    exact ⟨_, _, if_pos rfl⟩
  · intro fs dbFields c items data h1 h2
    rw [create_spec false fs c data dbFields items h1 h2,
      if_neg Bool.false_ne_true]
  · intro fs c data h
    rw [create_read_fail false fs c data h,
      create_spec false (some emptyDocText) c data [] [] read_emptyDocText rfl,
      if_neg Bool.false_ne_true]

/-- Witness for C3 on a missing file and on the empty document with a failing
write. -/
theorem claim_create_read_soft_write_hard_witness :
    create true none "users" [("a", .num 1)]
        = create true (some emptyDocText) "users" [("a", .num 1)]
    ∧ (∃ fs2 item, create true none "users" [("a", .num 1)] = .ok (fs2, item))
    ∧ create false (some emptyDocText) "users" [("a", .num 1)] = .error .writeError
    ∧ create false none "users" [("a", .num 1)] = .error .writeError :=
  ⟨claim_create_read_soft_write_hard.1 true none "users" [("a", .num 1)] rfl,
   claim_create_read_soft_write_hard.2.1 none "users" [("a", .num 1)] rfl,
   claim_create_read_soft_write_hard.2.2.1 (some emptyDocText) [] "users" []
     [("a", .num 1)] read_emptyDocText rfl,
   claim_create_read_soft_write_hard.2.2.2 none "users" [("a", .num 1)] rfl⟩

/-- C4: `getAll` returns the stored sequence when the key holds one, and the
empty sequence — never an error — when the key is absent or the read fails
(missing file or invalid JSON). -/
theorem claim_getAll_fail_soft :
    (∀ fs dbFields collection xs, read fs = some (.obj dbFields) →
        lookupField dbFields collection = some (.arr xs) →
        getAll fs collection = .arr xs)
    ∧ (∀ fs dbFields collection, read fs = some (.obj dbFields) →
        lookupField dbFields collection = none → getAll fs collection = .arr [])
    ∧ (∀ fs collection, read fs = none → getAll fs collection = .arr []) := by
  refine ⟨?_, ?_, ?_⟩
  · intro fs dbFields c xs h1 h2
    simp [getAll, h1, jGet, h2]
  · intro fs dbFields c h1 h2
    simp [getAll, h1, jGet, h2]
  · intro fs c h
    simp [getAll, h]

/-- Witness for C4: stored collection, absent key, missing file, and invalid
JSON. -/
theorem claim_getAll_fail_soft_witness :
    getAll (write (.obj [("a", .arr [.num 5])])) "a" = .arr [.num 5]
    ∧ getAll (write (.obj [("a", .arr [.num 5])])) "b" = .arr []
    ∧ getAll none "a" = .arr []
    ∧ getAll (some "nope") "a" = .arr [] :=
  ⟨claim_getAll_fail_soft.1 _ [("a", .arr [.num 5])] "a" [.num 5]
     (read_write (.obj [("a", .arr [.num 5])])) rfl,
   claim_getAll_fail_soft.2.1 _ [("a", .arr [.num 5])] "b"
     (read_write (.obj [("a", .arr [.num 5])])) rfl,
   claim_getAll_fail_soft.2.2 none "a" rfl,
   claim_getAll_fail_soft.2.2 (some "nope") "a"
     (by simp [read, parseJson, parseV, skipWs, isWs, isDigit, stripPref])⟩

/-- C5: `init` creates the file containing the empty-mapping encoding exactly
when the file is missing; an existing file — whatever its contents — is left
untouched, and `init` is idempotent. -/
theorem claim_init_idempotent :
    init none = some emptyDocText
    ∧ (∀ s, init (some s) = some s)
    ∧ (∀ fs, init (init fs) = init fs)
    ∧ emptyDocText = stringify (.obj []) := by
  refine ⟨rfl, fun s => rfl, ?_, rfl⟩
  intro fs
  cases fs <;> rfl

/-- C8: writing any document with `write` and reading it back with `read`
recovers the document exactly (which subsumes deep equality up to key
ordering in the JSON encoding). -/
theorem claim_write_read_roundtrip (v : JValue) : read (write v) = some v :=
  read_write v

/-- C9: when the initial read succeeds (and the target collection is absent
or an array), the document `create` writes equals the document read except
that the named collection has exactly the new item appended at its end; the
collection's previous items and every other key are unchanged. -/
theorem claim_create_frame (fs : FS) (dbFields : List (String × JValue))
    (collection : String) (items : List JValue) (data : List (String × JValue))
    (h1 : read fs = some (.obj dbFields))
    (h2 : collValue dbFields collection = .arr items) :
    create true fs collection data
      = .ok (write (.obj (setField dbFields collection
          (.arr (items ++ [.obj (spreadInto [("id", .num (nextId items))] data)])))),
        spreadInto [("id", .num (nextId items))] data)
    ∧ lookupField (setField dbFields collection
          (.arr (items ++ [.obj (spreadInto [("id", .num (nextId items))] data)]))) collection
        = some (.arr (items ++ [.obj (spreadInto [("id", .num (nextId items))] data)]))
    ∧ (∀ k, k ≠ collection →
        lookupField (setField dbFields collection
          (.arr (items ++ [.obj (spreadInto [("id", .num (nextId items))] data)]))) k
        = lookupField dbFields k) := by
  refine ⟨?_, lookupField_setField_self _ _ _,
    fun k hk => lookupField_setField_other _ _ _ _ hk⟩
  rw [create_spec true fs collection data dbFields items h1 h2, if_pos rfl]

/-- Witness for C9 on a two-collection document. -/
theorem claim_create_frame_witness :
    create true (write (.obj [("users", .arr [.obj [("id", .num 1)]]),
        ("posts", .arr [])])) "users" [("x", .num 3)]
      = .ok (write (.obj (setField [("users", .arr [.obj [("id", .num 1)]]),
            ("posts", .arr [])] "users"
          (.arr ([.obj [("id", .num 1)]]
            ++ [.obj (spreadInto [("id", .num (nextId [.obj [("id", .num 1)]]))]
                [("x", .num 3)])])))),
        spreadInto [("id", .num (nextId [.obj [("id", .num 1)]]))] [("x", .num 3)])
    ∧ lookupField (setField [("users", .arr [.obj [("id", .num 1)]]), ("posts", .arr [])]
          "users" (.arr ([.obj [("id", .num 1)]]
            ++ [.obj (spreadInto [("id", .num (nextId [.obj [("id", .num 1)]]))]
                [("x", .num 3)])]))) "posts"
        = lookupField [("users", .arr [.obj [("id", .num 1)]]), ("posts", .arr [])] "posts" :=
  ⟨(claim_create_frame _ [("users", .arr [.obj [("id", .num 1)]]), ("posts", .arr [])]
      "users" [.obj [("id", .num 1)]] [("x", .num 3)]
      (read_write (.obj [("users", .arr [.obj [("id", .num 1)]]), ("posts", .arr [])]))
      rfl).1,
   (claim_create_frame _ [("users", .arr [.obj [("id", .num 1)]]), ("posts", .arr [])]
      "users" [.obj [("id", .num 1)]] [("x", .num 3)]
      (read_write (.obj [("users", .arr [.obj [("id", .num 1)]]), ("posts", .arr [])]))
      rfl).2.2 "posts" (by decide)⟩

/-- C10: when the file parses to an object whose requested key holds a value
other than `null`, `getAll` returns that value verbatim, even when it is not
an array — no validation or coercion. -/
theorem claim_getAll_verbatim (fs : FS) (dbFields : List (String × JValue))
    (collection : String) (v : JValue)
    (h1 : read fs = some (.obj dbFields))
    (h2 : lookupField dbFields collection = some v)
    (h3 : v ≠ .null) :
    getAll fs collection = v := by
  cases v <;> simp_all [getAll, jGet]

/-- Witness for C10: a string stored under the key is returned unchanged. -/
theorem claim_getAll_verbatim_witness :
    getAll (write (.obj [("k", .str "s")])) "k" = .str "s" :=
  claim_getAll_verbatim _ [("k", .str "s")] "k" (.str "s")
    (read_write (.obj [("k", .str "s")])) rfl (by simp)

/-- C2: refuted on the code.  In the item literal the payload is spread after
the assigned id (`\x7b id: nextId, ...data \x7d`), so a payload-supplied `id`
(here 99) overwrites the freshly assigned identifier (here 1 = `nextId []`):
the stored and the returned item carry `id = 99`. -/
theorem claim_payload_id_overwrites_assigned :
    create true (some emptyDocText) "users" [("id", .num 99), ("a", .num 1)]
      = .ok (write (.obj [("users", .arr [.obj [("id", .num 99), ("a", .num 1)]])]),
          [("id", .num 99), ("a", .num 1)])
    ∧ lookupField [("id", .num 99), ("a", .num 1)] "id" = some (.num 99)
    ∧ nextId [] = 1 := by
  refine ⟨?_, rfl, rfl⟩
  rw [create_spec true (some emptyDocText) "users" [("id", .num 99), ("a", .num 1)]
    [] [] read_emptyDocText rfl, if_pos rfl]
  rfl

/-- C6: refuted on the code.  Two serialized creates into a fresh collection
whose payloads carry `id: 5` return items with ids 5 and 5 — not 1 and 2 —
and the second write stores two items with the same id in the collection. -/
theorem claim_serial_create_duplicate_ids :
    create true (some emptyDocText) "users" [("id", .num 5)]
      = .ok (write (.obj [("users", .arr [.obj [("id", .num 5)]])]), [("id", .num 5)])
    ∧ create true (write (.obj [("users", .arr [.obj [("id", .num 5)]])]))
        "users" [("id", .num 5), ("b", .num 2)]
      = .ok (write (.obj [("users", .arr [.obj [("id", .num 5)],
            .obj [("id", .num 5), ("b", .num 2)]])]),
          [("id", .num 5), ("b", .num 2)])
    ∧ numericIdOf (.obj [("id", .num 5)])
        = numericIdOf (.obj [("id", .num 5), ("b", .num 2)]) := by
  refine ⟨?_, ?_, rfl⟩
  · rw [create_spec true (some emptyDocText) "users" [("id", .num 5)] [] []
      read_emptyDocText rfl, if_pos rfl]
    rfl
  · rw [create_spec true (write (.obj [("users", .arr [.obj [("id", .num 5)]])]))
      "users" [("id", .num 5), ("b", .num 2)]
      [("users", .arr [.obj [("id", .num 5)]])] [.obj [("id", .num 5)]]
      (read_write (.obj [("users", .arr [.obj [("id", .num 5)]])])) rfl, if_pos rfl]
    rfl

theorem idMatches_lookup {fields : List (String × JValue)} {i : Int}
    (h : idMatches (.obj fields) i = true) :
    lookupField fields "id" = some (.num i) := by
  simp only [idMatches] at h
  rcases hlf : lookupField fields "id" with _ | v
  · rw [hlf] at h
    simp at h
  · rw [hlf] at h
    cases v with
    | num n => simp_all
    | null => simp_all
    | bool b => simp_all
    | str s2 => simp_all
    | arr xs => simp_all
    | obj o2 => simp_all

theorem idMatches_numericIdOf {it : JValue} {i : Int} (h : idMatches it i = true) :
    numericIdOf it = i := by
  cases it with
  | obj fields =>
    have hl := idMatches_lookup h
    simp [numericIdOf, hl]
  | null => simp [idMatches] at h
  | bool b => simp [idMatches] at h
  | num n => simp [idMatches] at h
  | str s2 => simp [idMatches] at h
  | arr xs => simp [idMatches] at h

theorem idMatches_false_of_mem {items : List JValue} {it : JValue} (hmem : it ∈ items) :
    idMatches it (nextId items) = false := by
  cases hb : idMatches it (nextId items)
  · rfl
  · exfalso
    have heq := idMatches_numericIdOf hb
    have hlt := numericIdOf_lt_nextId hmem
    omega

theorem findAndPatch_id (i : Int) (patch : List (String × JValue)) :
    ∀ (items items2 : List JValue) (upd : List (String × JValue)),
    findAndPatch items i patch = some (items2, upd) →
    lookupField upd "id" = some (.num i) := by
  intro items
  induction items with
  | nil =>
    intro items2 upd h
    simp [findAndPatch] at h
  | cons it rest ih =>
    intro items2 upd h
    have hskip : findAndPatch (it :: rest) i patch
          = (findAndPatch rest i patch).map (fun p => (it :: p.1, p.2)) →
        lookupField upd "id" = some (.num i) := by
      intro hstep
      rw [hstep] at h
      rcases hr : findAndPatch rest i patch with _ | p
      · rw [hr] at h
        simp at h
      · rcases p with ⟨l2, u2⟩
        rw [hr] at h
        simp at h
        obtain ⟨-, h2⟩ := h
        subst h2
        exact ih l2 u2 hr
    cases it with
    | obj fields =>
      by_cases hm : idMatches (.obj fields) i = true
      · simp only [findAndPatch, if_pos hm] at h
        simp only [Option.some.injEq, Prod.mk.injEq] at h
        obtain ⟨-, h2⟩ := h
        subst h2
        rw [mergePatch_id patch fields]
        exact idMatches_lookup hm
      · exact hskip (by simp only [findAndPatch, if_neg hm])
    | null => exact hskip (by simp only [findAndPatch])
    | bool b => exact hskip (by simp only [findAndPatch])
    | num n => exact hskip (by simp only [findAndPatch])
    | str s2 => exact hskip (by simp only [findAndPatch])
    | arr xs => exact hskip (by simp only [findAndPatch])

theorem findAndPatch_append_nomatch (i : Int) (patch fields : List (String × JValue))
    (hm : idMatches (.obj fields) i = true) :
    ∀ items : List JValue, (∀ it ∈ items, idMatches it i = false) →
    findAndPatch (items ++ [.obj fields]) i patch
      = some (items ++ [.obj (mergePatch fields patch)], mergePatch fields patch) := by
  intro items
  induction items with
  | nil =>
    intro _
    simp only [List.nil_append, findAndPatch, if_pos hm]
  | cons it rest ih =>
    intro hall
    have hit := hall it (List.mem_cons_self it rest)
    have hrest := ih (fun x hx => hall x (List.mem_cons_of_mem it hx))
    cases it with
    | obj f2 => simp [findAndPatch, hit, hrest]
    | null => simp [findAndPatch, hrest]
    | bool b => simp [findAndPatch, hrest]
    | num n => simp [findAndPatch, hrest]
    | str s2 => simp [findAndPatch, hrest]
    | arr xs => simp [findAndPatch, hrest]

/-- C7: the spec-modelled `updateItem` never alters the `id` field — whenever
it returns an updated item, that item's `id` equals the requested one, even
when the patch carries a different `id` — and updating a just-created item
(id-free payload) with the empty patch returns the created item unchanged. -/
theorem claim_updateItem_preserves_id :
    (∀ writeOk fs collection i patch fs2 upd,
        updateItem writeOk fs collection i patch = (fs2, some upd) →
        lookupField upd "id" = some (.num i))
    ∧ (∀ fs dbFields collection items data fs2 item,
        read fs = some (.obj dbFields) →
        collValue dbFields collection = .arr items →
        hasField data "id" = false →
        create true fs collection data = .ok (fs2, item) →
        ∃ fs3, updateItem true fs2 collection (nextId items) [] = (fs3, some item)) := by
  constructor
  · intro wOk fs c i patch fs2 upd h
    rw [updateItem] at h
    rcases hr : read fs with _ | db
    · rw [hr] at h
      simp at h
    · rw [hr] at h
      cases db with
      | obj dbFields =>
        dsimp only at h
        rcases hl : lookupField dbFields c with _ | v
        · rw [hl] at h
          simp at h
        · rw [hl] at h
          cases v with
          | arr items =>
            dsimp only at h
            rcases hf : findAndPatch items i patch with _ | p
            · rw [hf] at h
              simp at h
            · rcases p with ⟨items2, upd2⟩
              rw [hf] at h
              dsimp only at h
              cases wOk with
              | false => simp at h
              | true =>
                simp at h
                obtain ⟨h1, h2⟩ := h
                subst h2
                exact findAndPatch_id i patch items items2 _ hf
          | null => simp at h
          | bool b => simp at h
          | num n => simp at h
          | str s2 => simp at h
          | obj o2 => simp at h
      | null => simp at h
      | bool b => simp at h
      | num n => simp at h
      | str s2 => simp at h
      | arr xs => simp at h
  · intro fs dbFields c items data fs2 item h1 h2 h3 hc
    rw [create_spec true fs c data dbFields items h1 h2, if_pos rfl] at hc
    simp only [Except.ok.injEq, Prod.mk.injEq] at hc
    obtain ⟨hfs2, hitem⟩ := hc
    subst hfs2
    subst hitem
    have hmatch : idMatches (.obj (spreadInto [("id", .num (nextId items))] data))
        (nextId items) = true := by
      simp [idMatches, newItem_id items data h3]
    have hall : ∀ it ∈ items, idMatches it (nextId items) = false :=
      fun it hmem => idMatches_false_of_mem hmem
    have hfap := findAndPatch_append_nomatch (nextId items) []
      (spreadInto [("id", .num (nextId items))] data) hmatch items hall
    simp only [mergePatch, List.foldl_nil] at hfap
    refine ⟨write (.obj (setField
        (setField dbFields c (.arr (items
          ++ [.obj (spreadInto [("id", .num (nextId items))] data)]))) c
        (.arr (items ++ [.obj (spreadInto [("id", .num (nextId items))] data)])))), ?_⟩
    rw [updateItem, read_write]
    dsimp only
    rw [lookupField_setField_self]
    dsimp only
    rw [hfap]
    rfl

/-- Witness for C7: an update whose patch carries `id: 9` leaves `id = 1`,
and a freshly created item updated with the empty patch comes back
unchanged. -/
theorem claim_updateItem_preserves_id_witness :
    lookupField [("id", .num 1), ("a", .num 3)] "id" = some (.num 1)
    ∧ (∃ fs3, updateItem true (write (.obj [("users",
          .arr [.obj [("id", .num 1), ("a", .num 7)]])])) "users" (nextId []) []
        = (fs3, some [("id", .num 1), ("a", .num 7)])) :=
  ⟨claim_updateItem_preserves_id.1 true
      (write (.obj [("users", .arr [.obj [("id", .num 1), ("a", .num 2)]])]))
      "users" 1 [("id", .num 9), ("a", .num 3)]
      (write (.obj [("users", .arr [.obj [("id", .num 1), ("a", .num 3)]])]))
      [("id", .num 1), ("a", .num 3)]
      (by rw [updateItem, read_write]; rfl),
   claim_updateItem_preserves_id.2 (some emptyDocText) [] "users" [] [("a", .num 7)]
      (write (.obj [("users", .arr [.obj [("id", .num 1), ("a", .num 7)]])]))
      [("id", .num 1), ("a", .num 7)]
      read_emptyDocText rfl rfl
      (by rw [create_spec true (some emptyDocText) "users" [("a", .num 7)] [] []
            read_emptyDocText rfl, if_pos rfl]; rfl)⟩

end JsonDb
